import Mathlib

/-!
Verification of the httptunnel repository's one-time-code engine
(internal/totp, internal/totu), origin policy and hijack entry point
(server.go, helpers.go), proxy CONNECT dialer and tunnel dialer
(helpers.go, server.go), as a shallow embedding in Lean.

Bytes are modelled as `Nat` (with `< 256` side conditions where the
encoding depends on them), Go strings as `List Char`, Go `error`
results as `Option`/`Except`, file I/O as an explicit map from paths
to file contents, and the external hash primitives (sha1/sha256/
sha512/md5) as an abstract family of hash functions.
-/

set_option maxRecDepth 10000

/-! ## Base64 (URL-safe alphabet, padded), after Go encoding/base64 -/

/-- Character of the URL-safe base64 alphabet at index `n < 64`. -/
def b64char (n : Nat) : Char :=
  if n < 26 then Char.ofNat (65 + n)
  else if n < 52 then Char.ofNat (97 + (n - 26))
  else if n < 62 then Char.ofNat (48 + (n - 52))
  else if n = 62 then '-'
  else '_'

/-- Index of a character in the URL-safe base64 alphabet, `none` when
the character is not in the alphabet (Go reports CorruptInputError). -/
def b64decChar (c : Char) : Option Nat :=
  let n := c.toNat
  if 65 ≤ n ∧ n ≤ 90 then some (n - 65)
  else if 97 ≤ n ∧ n ≤ 122 then some (n - 97 + 26)
  else if 48 ≤ n ∧ n ≤ 57 then some (n - 48 + 52)
  else if c = '-' then some 62
  else if c = '_' then some 63
  else none

/-- Go `base64.URLEncoding.EncodeToString`: bytes to padded URL-safe
base64 text, three input bytes per four output characters. -/
def base64UrlEncode : List Nat → List Char
  | [] => []
  | [a] => [b64char (a / 4), b64char (a % 4 * 16), '=', '=']
  | [a, b] => [b64char (a / 4), b64char (a % 4 * 16 + b / 16), b64char (b % 16 * 4), '=']
  | a :: b :: c :: rest =>
      b64char (a / 4) :: b64char (a % 4 * 16 + b / 16) ::
      b64char (b % 16 * 4 + c / 64) :: b64char (c % 64) :: base64UrlEncode rest

/-- Go `base64.URLEncoding.DecodeString`: padded URL-safe base64 text to
bytes; fails on characters outside the alphabet, on input whose length
is not a multiple of four, and on padding anywhere but the end.  Go's
default (non-Strict) decoder discards nonzero trailing padding bits,
as this model does. -/
def base64UrlDecode : List Char → Option (List Nat)
  | [] => some []
  | c0 :: c1 :: c2 :: c3 :: rest =>
      if c2 = '=' ∧ c3 = '=' ∧ rest = [] then
        match b64decChar c0, b64decChar c1 with
        | some s0, some s1 => some [s0 * 4 + s1 / 16]
        | _, _ => none
      else if c3 = '=' ∧ rest = [] then
        match b64decChar c0, b64decChar c1, b64decChar c2 with
        | some s0, some s1, some s2 =>
            some [s0 * 4 + s1 / 16, s1 % 16 * 16 + s2 / 4]
        | _, _, _ => none
      else
        match b64decChar c0, b64decChar c1, b64decChar c2, b64decChar c3,
            base64UrlDecode rest with
        | some s0, some s1, some s2, some s3, some l =>
            some ((s0 * 4 + s1 / 16) :: (s1 % 16 * 16 + s2 / 4) :: (s2 % 4 * 64 + s3) :: l)
        | _, _, _, _, _ => none
  | _ => none

/-! ## Hash functions and HMAC (Go crypto/hmac over an abstract hash) -/

/-- An external hash primitive: its compression behaviour is abstract,
only its interface (bytes to bytes) and block size are relevant. -/
structure HashFunction where
  hash : List Nat → List Nat
  blockSize : Nat

/-- Go `crypto/hmac`: keys longer than the block size are hashed, keys are
zero-padded to the block size, and the digest is
`H((key xor opad) ++ H((key xor ipad) ++ msg))`. -/
def hmacDigest (H : HashFunction) (key msg : List Nat) : List Nat :=
  let key := if H.blockSize < key.length then H.hash key else key
  let key := key ++ List.replicate (H.blockSize - key.length) 0
  let ipadded := key.map (fun b => b ^^^ 0x36)
  let opadded := key.map (fun b => b ^^^ 0x5c)
  H.hash (opadded ++ H.hash (ipadded ++ msg))

/-- Go `binary.Write(mac, binary.BigEndian, counter)`: the eight bytes of a
64-bit counter, most significant first. -/
def be64 (n : Nat) : List Nat :=
  [n / 2 ^ 56 % 256, n / 2 ^ 48 % 256, n / 2 ^ 40 % 256, n / 2 ^ 32 % 256,
   n / 2 ^ 24 % 256, n / 2 ^ 16 % 256, n / 2 ^ 8 % 256, n % 256]

/-- Little-endian eight-byte encoding of a 64-bit integer
(Go `binary.LittleEndian` for the `Period` field). -/
def le64 (n : Nat) : List Nat :=
  [n % 256, n / 2 ^ 8 % 256, n / 2 ^ 16 % 256, n / 2 ^ 24 % 256,
   n / 2 ^ 32 % 256, n / 2 ^ 40 % 256, n / 2 ^ 48 % 256, n / 2 ^ 56 % 256]

/-- Little-endian decoding of eight bytes (first eight entries of `b`). -/
def le64dec (b : List Nat) : Nat :=
  b.getD 0 0 + b.getD 1 0 * 2 ^ 8 + b.getD 2 0 * 2 ^ 16 + b.getD 3 0 * 2 ^ 24 +
  b.getD 4 0 * 2 ^ 32 + b.getD 5 0 * 2 ^ 40 + b.getD 6 0 * 2 ^ 48 + b.getD 7 0 * 2 ^ 56

/-! ## internal/totp: key records -/

/-- `totp.Config`: the versioned binary key record.  The algorithm selector
is the raw byte of the Go `Algorithm` (0 = sha1, 1 = sha256, 2 = sha512,
3 = md5); fields are `Nat`s standing for the Go fixed-width integers. -/
structure Config where
  version : Nat
  id : List Nat
  secret : List Nat
  period : Nat
  algorithm : Nat
deriving DecidableEq, Repr

/-- Well-formedness of a key record as laid out by the Go struct:
one-byte version, 16-byte identifier, 1024-byte secret, 64-bit period,
one-byte algorithm selector. -/
def Config.WF (c : Config) : Prop :=
  c.version < 256 ∧ c.id.length = 16 ∧ c.secret.length = 1024 ∧
    c.period < 2 ^ 64 ∧ c.algorithm < 256

/-- Error outcomes of the totp package.  `indexOutOfRange` stands for the
Go runtime panic on `b[0]` for an empty record, `bufferTooShort` for the
`binary.Decode` error on inputs shorter than the struct, `ioError` for a
failing `os.Open`/`io.ReadAll`. -/
inductive TotpError
  | unsupportedVersion
  | bufferTooShort
  | indexOutOfRange
  | ioError
deriving DecidableEq, Repr

/-- `Config.Marshal`: `binary.Encode(buf, binary.LittleEndian, config)` into
a 1064-byte buffer; the struct occupies the first 1050 bytes and the
remaining 14 bytes of the buffer stay zero. -/
def Config.Marshal (c : Config) : List Nat :=
  c.version :: (c.id ++ c.secret ++ le64 c.period ++ [c.algorithm] ++ List.replicate 14 0)

/-- `totp.Unmarshal`: reject first byte ≠ 1 as unsupported, otherwise decode
the little-endian struct layout (`binary.Decode`). -/
def Unmarshal (b : List Nat) : Except TotpError Config :=
  match b with
  | [] => .error .indexOutOfRange
  | version :: _ =>
      if version ≠ 1 then .error .unsupportedVersion
      else if b.length < 1050 then .error .bufferTooShort
      else .ok
        { version := version
          id := (b.drop 1).take 16
          secret := (b.drop 17).take 1024
          period := le64dec ((b.drop 1041).take 8)
          algorithm := (b.drop 1049).headD 0 }

/-- `totp.ReadConfig`: `io.ReadAll` of the reader (modelled by the byte list
it yields) followed by `Unmarshal`. -/
def ReadConfig (b : List Nat) : Except TotpError Config :=
  Unmarshal b

/-- `totp.LoadConfig`: open the file at `path` (the filesystem is modelled
as a map from paths to contents; `none` is a failing `os.Open`) and read
a config from it. -/
def LoadConfig (fs : String → Option (List Nat)) (path : String) : Except TotpError Config :=
  match fs path with
  | none => .error .ioError
  | some b => ReadConfig b

/-- `totp.HmacSum`: the HMAC digest of the big-endian 8-byte counter
`floor(unixSeconds / period)`, keyed by the record's secret, using the
hash selected by the record's algorithm byte (`algHash` supplies the
external hash primitives).  The Go source computes the counter with
float64 division and floor; on the representable range this equals
natural floor division, which is used here. -/
def HmacSum (algHash : Nat → HashFunction) (unixSeconds : Nat) (c : Config) : List Nat :=
  hmacDigest (algHash c.algorithm) c.secret (be64 (unixSeconds / c.period))

/-! ## internal/totu: one-time url codes -/

/-- Error outcomes of `totu.Validate`: the four named errors of the package,
a base64 `CorruptInputError`, and a failing `totp.LoadConfig`. -/
inductive TotuError
  | codeMismatch
  | codeTooShort
  | keyNotFound
  | codeAlreadyUsed
  | base64DecodeError
  | loadConfigError (e : TotpError)
deriving DecidableEq, Repr

/-- `totu.CircularList`: a fixed slice and a write index. -/
structure CircularList (α : Type) where
  list : List α
  idx : Nat
deriving DecidableEq, Repr

/-- Go `slices.Index`: index of the first occurrence, `-1` when absent. -/
def slicesIndex [DecidableEq α] : List α → α → Int
  | [], _ => -1
  | a :: rest, x =>
      if a = x then 0
      else
        let r := slicesIndex rest x
        if r = -1 then -1 else r + 1

/-- `CircularList.Put`: overwrite the slot at the write index and advance
it cyclically. -/
def CircularList.Put (c : CircularList α) (item : α) : CircularList α :=
  { list := c.list.set c.idx item, idx := (c.idx + 1) % c.list.length }

/-- `CircularList.Index` via `slices.Index`. -/
def CircularList.Index [DecidableEq α] (c : CircularList α) (item : α) : Int :=
  slicesIndex c.list item

/-- `CircularList.Has`: membership test. -/
def CircularList.Has [DecidableEq α] (c : CircularList α) (item : α) : Bool :=
  c.Index item != -1

/-- `totu.Validator`: key storage locations by identifier (the Go map is
modelled as an association list, later insertions in front) plus the
replay buffer of previously accepted codes. -/
structure Validator where
  configPathsById : List (List Nat × String)
  keysUsed : CircularList (List Char)
deriving DecidableEq, Repr

/-- `totu.GetId`. -/
def GetId (c : Config) : List Nat :=
  c.id

/-- `totu.GenerateCode`: URL-safe base64 of identifier ++ HMAC digest. -/
def GenerateCode (algHash : Nat → HashFunction) (t : Nat) (c : Config) : List Char :=
  base64UrlEncode (GetId c ++ HmacSum algHash t c)

/-- The one-time URL code as § 6 of the spec words it: counter =
floor(unix-seconds / period), digest = HMAC(algorithm, key = secret,
message = big-endian 8-byte counter), code = URL-safe base64 of
(identifier ++ digest). -/
def specOneTimeCode (algHash : Nat → HashFunction) (t : Nat) (c : Config) : List Char :=
  let counter := t / c.period
  let digest := hmacDigest (algHash c.algorithm) c.secret (be64 counter)
  base64UrlEncode (c.id ++ digest)

/-- `Validator.Validate`, with the mutation of `keysUsed` made explicit by
returning the updated validator next to the `error` result. -/
def Validate (algHash : Nat → HashFunction) (fs : String → Option (List Nat))
    (v : Validator) (t : Nat) (urlCode : List Char) : Validator × Option TotuError :=
  if urlCode.length = 0 then (v, some .codeTooShort)
  else if v.keysUsed.Has urlCode then (v, some .codeAlreadyUsed)
  else
    match base64UrlDecode urlCode with
    | none => (v, some .base64DecodeError)
    | some decoded =>
        if decoded.length ≤ 16 then (v, some .codeTooShort)
        else
          let kid := decoded.take 16
          let clientSum := decoded.drop 16
          match v.configPathsById.lookup kid with
          | none => (v, some .keyNotFound)
          | some keyPath =>
              match LoadConfig fs keyPath with
              | .error e => (v, some (.loadConfigError e))
              | .ok config =>
                  let serverSum := HmacSum algHash t config
                  if serverSum = clientSum then
                    ({ v with keysUsed := v.keysUsed.Put urlCode }, none)
                  else (v, some .codeMismatch)

/-- `totu.NewValidator`: load every key record, index the storage paths by
key identifier, and start with a replay buffer of 100 empty strings. -/
def NewValidator (fs : String → Option (List Nat)) (configPaths : List String) :
    Except TotpError Validator :=
  match configPaths.foldlM
      (fun acc p => (LoadConfig fs p).map (fun c => (GetId c, p) :: acc)) [] with
  | .error e => .error e
  | .ok pairs => .ok ⟨pairs, ⟨List.replicate 100 [], 0⟩⟩

/-- Repeated insertion into a circular list (`Put` once per code). -/
def putAll (c : CircularList α) (xs : List α) : CircularList α :=
  xs.foldl CircularList.Put c

/-! ## helpers.go / server.go: origin policy and hijack entry -/

/-- ASCII case folding of one character, as the body of `equalASCIIFold`
folds it: `'A'..'Z'` map to `'a'..'z'`, everything else is unchanged. -/
def foldChar (c : Char) : Char :=
  if 'A' ≤ c ∧ c ≤ 'Z' then Char.ofNat (c.toNat + 32) else c

/-- `equalASCIIFold`: equality of two strings (as rune sequences) with
ASCII case folding; the Go loop compares rune by rune, folding only when
the raw runes differ, and at exhaustion demands both strings be empty. -/
def equalASCIIFold : List Char → List Char → Bool
  | sc :: srest, tc :: trest =>
      if sc = tc then equalASCIIFold srest trest
      else if foldChar sc = foldChar tc then equalASCIIFold srest trest
      else false
  | s, t => s = t

/-- The parsed-URL shape `checkSameOrigin` consults: only the host part. -/
structure URLModel where
  host : List Char
deriving DecidableEq, Repr

/-- The request shape the acceptor consults: the `Origin` header values
(`r.Header["Origin"]`) and the request `Host`. -/
structure Request where
  originHeader : List (List Char)
  host : List Char
deriving DecidableEq, Repr

/-- `checkSameOrigin`: accept when no `Origin` header is present; otherwise
parse the first value (`url.Parse` is the external parameter `parseURL`,
`none` a parse error) and compare its host with the request host under
ASCII case folding. -/
def checkSameOrigin (parseURL : List Char → Option URLModel) (r : Request) : Bool :=
  match r.originHeader with
  | [] => true
  | o :: _ =>
      match parseURL o with
      | none => false
      | some u => equalASCIIFold u.host r.host

/-- `HijackOptions`: the two nullable override hooks (timeout omitted, it
is never consulted by `HandleRequest`/`Hijack`). -/
structure HijackOptions where
  overrideHandleRequest : Option (Request → Option String)
  overrideCheckOrigin : Option (Request → Option String)

/-- The error text of the default origin policy. -/
def badOriginMsg : String :=
  "http-tunnel: request origin not allowed by HijackOptions.checkOrigin"

/-- `HijackOptions.HandleRequest`: default origin check (or the override),
then the optional custom request handler. -/
def HandleRequest (parseURL : List Char → Option URLModel) (options : HijackOptions)
    (r : Request) : Option String :=
  let originResult : Option String :=
    match options.overrideCheckOrigin with
    | none => if ¬checkSameOrigin parseURL r then some badOriginMsg else none
    | some check => check r
  match originResult with
  | some e => some e
  | none =>
      match options.overrideHandleRequest with
      | none => none
      | some handle => handle r

/-- `Hijack`: run `HandleRequest` and only on success take over the
transport connection (the runtime's hijack step is the external
parameter `hijackStep`, yielding a connection id or an error). -/
def Hijack (parseURL : List Char → Option URLModel) (options : HijackOptions)
    (r : Request) (hijackStep : Except String Nat) : Except String Nat :=
  match HandleRequest parseURL options r with
  | some e => .error e
  | none => hijackStep

/-! ## helpers.go: proxy CONNECT dialer -/

/-- Go `strings.SplitN(s, sep, 2)`: split at the first separator. -/
def splitN2 : List Char → Char → List (List Char)
  | [], _ => [[]]
  | c :: rest, sep =>
      if c = sep then [[], rest]
      else
        match splitN2 rest sep with
        | [] => [[c]]
        | first :: others => (c :: first) :: others

/-- The parsed CONNECT response as the proxy dialer consults it:
`resp.StatusCode` and the status line text `resp.Status`. -/
structure HTTPResponse where
  statusCode : Nat
  status : List Char
deriving DecidableEq, Repr

/-- Environment of one `httpProxyDialer.DialContext` run: the outcome of
the forward dial, of writing the CONNECT request, and of reading the
HTTP response. -/
structure ProxyEnv where
  forwardDial : Except (List Char) Nat
  writeErr : Option (List Char)
  readResp : Except (List Char) HTTPResponse

/-- Result of the proxy dialer: a connection, an error value, or the Go
runtime panic on `f[1]` when the status line has no second field. -/
inductive ProxyResult
  | conn (c : Nat)
  | err (msg : List Char)
  | indexCrash
deriving DecidableEq, Repr

/-- `httpProxyDialer.DialContext` after the forward dial: write the CONNECT
request (closing the connection on error), read the response (closing on
error), and treat any status other than 200 as a failure — close the
connection and surface `strings.SplitN(resp.Status, " ", 2)[1]` as the
error.  The second component records whether the connection obtained
from the forward dial was closed. -/
def proxyDialContext (env : ProxyEnv) : ProxyResult × Bool :=
  match env.forwardDial with
  | .error e => (.err e, false)
  | .ok conn =>
      match env.writeErr with
      | some e => (.err e, true)
      | none =>
          match env.readResp with
          | .error e => (.err e, true)
          | .ok resp =>
              if resp.statusCode ≠ 200 then
                match (splitN2 resp.status ' ').get? 1 with
                | some reason => (.err reason, true)
                | none => (.indexCrash, true)
              else (.conn conn, false)

/-! ## server.go: Dialer.DialContext -/

/-- The parts of the resolved URL `DialContext` consults. -/
structure TunnelURL where
  scheme : String
deriving DecidableEq, Repr

/-- Environment of one `Dialer.DialContext` run: the outcome of each
fallible step, in source order.  `hasNetDialTLSContext` is whether the
TLS dial override is set (it suppresses the TLS-wrapping branch);
`protoMismatch` is whether `TLSClientConfig.NextProtos` names a protocol
other than http/1.1, which only rewords the read error. -/
structure DialEnv where
  getUrl : Except String TunnelURL
  prepErr : Option String
  proxyErr : Option String
  dialResult : Except String Nat
  hasNetDialTLSContext : Bool
  tlsErr : Option String
  newReader : Except String Nat
  writeErr : Option String
  readResp : Except String Nat
  protoMismatch : Bool
  clearDeadlineErr : Option String

/-- What one `Dialer.DialContext` run returns and does to the transport
connection: the three returned handles, the error, whether a transport
connection was opened, and whether it was closed. -/
structure DialResult where
  conn : Option Nat
  br : Option Nat
  resp : Option Nat
  err : Option String
  opened : Bool
  closed : Bool
deriving DecidableEq, Repr

/-- The rewording `DialContext` applies to a response-read error when a
non-http/1.1 protocol was configured. -/
def protoErrMsg (e : String) : String :=
  "http-tunnel: unsupported protocol was given; " ++ e

/-- `Dialer.DialContext`: resolve the URL, prepare the request, wrap the
dial function for the proxy, dial, optionally wrap TLS and handshake,
build the buffered reader, write the request, read the response, and
clear the connection deadline.  Every failure after the dial closes the
connection (the deferred close), which the `closed` flag records; the
success path disarms it. -/
def DialContext (env : DialEnv) : DialResult :=
  match env.getUrl with
  | .error e => ⟨none, none, none, some e, false, false⟩
  | .ok u =>
      match env.prepErr with
      | some e => ⟨none, none, none, some e, false, false⟩
      | none =>
          match env.proxyErr with
          | some e => ⟨none, none, none, some e, false, false⟩
          | none =>
              match env.dialResult with
              | .error e => ⟨none, none, none, some e, false, false⟩
              | .ok conn =>
                  if u.scheme = "https" ∧ env.hasNetDialTLSContext = false ∧
                      env.tlsErr.isSome then
                    ⟨none, none, none, env.tlsErr, true, true⟩
                  else
                    match env.newReader with
                    | .error e => ⟨none, none, none, some e, true, true⟩
                    | .ok br =>
                        match env.writeErr with
                        | some e => ⟨none, none, none, some e, true, true⟩
                        | none =>
                            match env.readResp with
                            | .error e =>
                                ⟨none, none, none,
                                  some (if env.protoMismatch then protoErrMsg e else e),
                                  true, true⟩
                            | .ok resp =>
                                match env.clearDeadlineErr with
                                | some e => ⟨none, some br, some resp, some e, true, true⟩
                                | none => ⟨some conn, some br, some resp, none, true, false⟩

/-! ## Concrete inputs used to instantiate the theorems -/

/-- A concrete well-formed key record (version 1, md5 selector). -/
def cfgA : Config :=
  ⟨1, List.replicate 16 0, List.replicate 1024 0, 30, 3⟩

/-- A concrete hash family: every algorithm maps to a constant one-byte
digest with the md5/sha block size. -/
def hashA : Nat → HashFunction :=
  fun _ => ⟨fun _ => [7], 64⟩

/-- A concrete filesystem holding the marshalled record under one path. -/
def fsA : String → Option (List Nat) :=
  fun _ => some cfgA.Marshal

/-- A fresh validator holding `cfgA`'s key. -/
def validatorA : Validator :=
  ⟨[(cfgA.id, "k")], ⟨List.replicate 100 [], 0⟩⟩

/-- 101 pairwise distinct one-character codes. -/
def codesA : List (List Char) :=
  (List.range 101).map (fun n => [Char.ofNat (65 + n)])

/-! ## Lemmas about the base64 codec -/

/-- Decoding the alphabet character of a sextet recovers the sextet. -/
theorem b64decChar_b64char_all : ∀ n, n < 64 → b64decChar (b64char n) = some n := by
  decide

/-- Alphabet characters are never the padding character. -/
theorem b64char_ne_pad_all : ∀ n, n < 64 → b64char n ≠ '=' := by
  decide

/-- Encoding and then decoding a byte list recovers it. -/
theorem base64UrlDecode_encode :
    ∀ (l : List Nat), (∀ b ∈ l, b < 256) → base64UrlDecode (base64UrlEncode l) = some l
  | [], _ => rfl
  | [a], h => by
      have ha : a < 256 := h a (by simp)
      have h0 : a / 4 < 64 := by omega
      have h1 : a % 4 * 16 < 64 := by omega
      simp only [base64UrlEncode, base64UrlDecode]
      rw [if_pos (by simp), b64decChar_b64char_all _ h0, b64decChar_b64char_all _ h1]
      simp only [Option.some.injEq, List.cons.injEq, and_true]
      omega
  | [a, b], h => by
      have ha : a < 256 := h a (by simp)
      have hb : b < 256 := h b (by simp)
      have h0 : a / 4 < 64 := by omega
      have h1 : a % 4 * 16 + b / 16 < 64 := by omega
      have h2 : b % 16 * 4 < 64 := by omega
      simp only [base64UrlEncode, base64UrlDecode]
      rw [if_neg (by simp [b64char_ne_pad_all _ h2]), if_pos (by simp),
        b64decChar_b64char_all _ h0, b64decChar_b64char_all _ h1, b64decChar_b64char_all _ h2]
      simp only [Option.some.injEq, List.cons.injEq, and_true]
      constructor
      · omega
      · omega
  | a :: b :: c :: rest, h => by
      have ha : a < 256 := h a (by simp)
      have hb : b < 256 := h b (by simp)
      have hc : c < 256 := h c (by simp)
      have h0 : a / 4 < 64 := by omega
      have h1 : a % 4 * 16 + b / 16 < 64 := by omega
      have h2 : b % 16 * 4 + c / 64 < 64 := by omega
      have h3 : c % 64 < 64 := by omega
      have ih := base64UrlDecode_encode rest (fun x hx => h x (by simp [hx]))
      simp only [base64UrlEncode, base64UrlDecode]
      rw [if_neg (by simp [b64char_ne_pad_all _ h2, b64char_ne_pad_all _ h3]),
        if_neg (by simp [b64char_ne_pad_all _ h3]),
        b64decChar_b64char_all _ h0, b64decChar_b64char_all _ h1,
        b64decChar_b64char_all _ h2, b64decChar_b64char_all _ h3, ih]
      simp only [Option.some.injEq, List.cons.injEq, and_true]
      refine ⟨by omega, by omega, by omega⟩

/-- Encoding a nonempty byte list yields a nonempty string. -/
theorem base64UrlEncode_ne_nil {l : List Nat} (h : l ≠ []) :
    base64UrlEncode l ≠ [] := by
  match l with
  | [] => exact absurd rfl h
  | [a] => simp [base64UrlEncode]
  | [a, b] => simp [base64UrlEncode]
  | a :: b :: c :: rest => simp [base64UrlEncode]

/-! ## Little-endian 64-bit roundtrip -/

/-- Decoding the little-endian encoding of a 64-bit value recovers it. -/
theorem le64dec_le64 {p : Nat} (h : p < 2 ^ 64) : le64dec (le64 p) = p := by
  simp only [le64, le64dec, List.getD, List.get?, Option.getD_some]
  omega

/-! ## C1: code generation formula -/

/-- C1: for every key config and time, the generated one-time URL code is
the URL-safe base64 encoding of the 16-byte identifier concatenated with
the HMAC digest (config's algorithm, keyed by the secret) of the
big-endian 8-byte counter floor(unix-seconds / period). -/
theorem generateCode_eq_spec (algHash : Nat → HashFunction) (t : Nat) (c : Config) :
    GenerateCode algHash t c = specOneTimeCode algHash t c :=
  rfl

/-! ## C5: marshal/unmarshal roundtrip -/

/-- C5: for every well-formed key record with version 1, unmarshalling the
marshalled record yields the record back, equal in every field. -/
theorem config_marshal_roundtrip (c : Config) (hWF : c.WF) (hv : c.version = 1) :
    Unmarshal c.Marshal = .ok c := by
  obtain ⟨h256, hid, hsec, hper, halg⟩ := hWF
  rcases c with ⟨ver, id, sec, per, alg⟩
  simp only at hid hsec hper halg hv
  subst hv
  have hm : Config.Marshal ⟨1, id, sec, per, alg⟩ =
      1 :: (id ++ (sec ++ (le64 per ++ ([alg] ++ List.replicate 14 0)))) := by
    simp [Config.Marshal]
  have hd1 : (((1 : Nat) :: (id ++ (sec ++ (le64 per ++ ([alg] ++ List.replicate 14 0))))).drop 1)
      = id ++ (sec ++ (le64 per ++ ([alg] ++ List.replicate 14 0))) := rfl
  have hd17 : (((1 : Nat) :: (id ++ (sec ++ (le64 per ++ ([alg] ++ List.replicate 14 0))))).drop 17)
      = sec ++ (le64 per ++ ([alg] ++ List.replicate 14 0)) := by
    rw [List.drop_succ_cons, List.drop_left' hid]
  have hd1041 :
      (((1 : Nat) :: (id ++ (sec ++ (le64 per ++ ([alg] ++ List.replicate 14 0))))).drop 1041)
      = le64 per ++ ([alg] ++ List.replicate 14 0) := by
    rw [List.drop_succ_cons, show (1040 : Nat) = id.length + 1024 by rw [hid],
      List.drop_append, List.drop_left' hsec]
  have hd1049 :
      (((1 : Nat) :: (id ++ (sec ++ (le64 per ++ ([alg] ++ List.replicate 14 0))))).drop 1049)
      = [alg] ++ List.replicate 14 0 := by
    rw [List.drop_succ_cons, show (1048 : Nat) = id.length + 1032 by rw [hid],
      List.drop_append, show (1032 : Nat) = sec.length + 8 by rw [hsec],
      List.drop_append, List.drop_left' (show (le64 per).length = 8 from rfl)]
  have hlen :
      (((1 : Nat) :: (id ++ (sec ++ (le64 per ++ ([alg] ++ List.replicate 14 0))))).length)
      = 1064 := by
    simp [le64, hid, hsec]
  rw [hm]
  simp only [Unmarshal]
  rw [if_neg (by omega), if_neg (by omega)]
  rw [hd1, hd17, hd1041, hd1049]
  rw [List.take_left' hid, List.take_left' hsec,
    List.take_left' (show (le64 per).length = 8 from rfl), le64dec_le64 hper]
  rfl

/-- Witness for C5 at the concrete record `cfgA`. -/
theorem config_marshal_roundtrip_witness :
    cfgA.WF ∧ cfgA.version = 1 ∧ Unmarshal cfgA.Marshal = .ok cfgA :=
  ⟨by simp [cfgA, Config.WF], rfl,
    config_marshal_roundtrip cfgA (by simp [cfgA, Config.WF]) rfl⟩

/-! ## C6: unsupported version is rejected -/

/-- C6: any record whose first byte is not 1 is rejected by `Unmarshal`
(and therefore by `ReadConfig` and `LoadConfig`) with the distinct
unsupported-version error; no config is decoded. -/
theorem unmarshal_rejects_bad_version (ver : Nat) (bs : List Nat)
    (fs : String → Option (List Nat)) (path : String) (hv : ver ≠ 1) :
    Unmarshal (ver :: bs) = .error .unsupportedVersion ∧
    ReadConfig (ver :: bs) = .error .unsupportedVersion ∧
    (fs path = some (ver :: bs) → LoadConfig fs path = .error .unsupportedVersion) := by
  have h1 : Unmarshal (ver :: bs) = .error .unsupportedVersion := by
    simp [Unmarshal, hv]
  exact ⟨h1, h1, fun hf => by simp [LoadConfig, hf, ReadConfig, h1]⟩

/-- Witness for C6: version byte 255 is rejected everywhere. -/
theorem unmarshal_rejects_bad_version_witness :
    (255 : Nat) ≠ 1 ∧ Unmarshal [255] = .error .unsupportedVersion ∧
      LoadConfig (fun _ => some [255]) "key.bin" = .error .unsupportedVersion := by
  have h := unmarshal_rejects_bad_version 255 [] (fun _ => some [255]) "key.bin" (by decide)
  exact ⟨by decide, h.1, h.2.2 rfl⟩

/-! ## C10: Validate mutates the replay buffer only on success -/

/-- C10: every `Validate` call that returns an error leaves the validator
(and so its replay buffer) unchanged; a code is recorded only on the
nil-error return. -/
theorem validate_error_preserves_state (algHash : Nat → HashFunction)
    (fs : String → Option (List Nat)) (v : Validator) (t : Nat) (code : List Char) :
    (Validate algHash fs v t code).2 ≠ none → (Validate algHash fs v t code).1 = v := by
  have hcases : (Validate algHash fs v t code).2 = none ∨
      (Validate algHash fs v t code).1 = v := by
    unfold Validate
    repeat' split
    all_goals try simp
    rename_i hne0 hnotused x decoded heq hgt
    rcases hl : List.lookup (List.take 16 decoded) v.configPathsById with _ | keyPath
    · simp [hl]
    · rcases hc : LoadConfig fs keyPath with e | config <;> simp only [hl, hc]
      · simp
      · split <;> simp
  exact fun h => hcases.resolve_left h

/-- Witness for C10: the empty code fails and the validator is unchanged. -/
theorem validate_error_preserves_state_witness :
    (Validate hashA fsA validatorA 0 []).2 ≠ none ∧
      (Validate hashA fsA validatorA 0 []).1 = validatorA :=
  ⟨by decide, validate_error_preserves_state hashA fsA validatorA 0 [] (by decide)⟩

/-! ## C3: default origin policy -/

/-- `equalASCIIFold` decides exactly equality under per-character ASCII
case folding. -/
theorem equalASCIIFold_iff : ∀ s t : List Char,
    equalASCIIFold s t = true ↔ s.map foldChar = t.map foldChar
  | [], [] => by simp [equalASCIIFold]
  | [], c :: t => by simp [equalASCIIFold]
  | c :: s, [] => by simp [equalASCIIFold]
  | sc :: s, tc :: t => by
      have ih := equalASCIIFold_iff s t
      simp only [equalASCIIFold, List.map_cons]
      by_cases h1 : sc = tc
      · subst h1
        rw [if_pos rfl]
        simp [ih]
      · rw [if_neg h1]
        by_cases h2 : foldChar sc = foldChar tc
        · rw [if_pos h2, h2]
          simp [ih]
        · rw [if_neg h2]
          simp [h2]

/-- C3: with no overrides, the acceptor accepts a request without an
`Origin` header, accepts a request whose `Origin` host equals the request
`Host` under ASCII case folding, and rejects every other request with the
distinct bad-origin error without consulting the hijack step. -/
theorem default_origin_policy (parseURL : List Char → Option URLModel) (r : Request)
    (hijackStep : Except String Nat) :
    (r.originHeader = [] →
        HandleRequest parseURL ⟨none, none⟩ r = none ∧
        Hijack parseURL ⟨none, none⟩ r hijackStep = hijackStep) ∧
    (∀ o rest u, r.originHeader = o :: rest → parseURL o = some u →
        u.host.map foldChar = r.host.map foldChar →
        HandleRequest parseURL ⟨none, none⟩ r = none ∧
        Hijack parseURL ⟨none, none⟩ r hijackStep = hijackStep) ∧
    (∀ o rest, r.originHeader = o :: rest →
        (∀ u, parseURL o = some u → u.host.map foldChar ≠ r.host.map foldChar) →
        HandleRequest parseURL ⟨none, none⟩ r = some badOriginMsg ∧
        Hijack parseURL ⟨none, none⟩ r hijackStep = .error badOriginMsg) := by
  refine ⟨fun h => ?_, fun o rest u ho hu hfold => ?_, fun o rest ho hmis => ?_⟩
  · have hc : checkSameOrigin parseURL r = true := by
      simp [checkSameOrigin, h]
    simp [HandleRequest, Hijack, hc]
  · have hc : checkSameOrigin parseURL r = true := by
      simp [checkSameOrigin, ho, hu, (equalASCIIFold_iff _ _).2 hfold]
    simp [HandleRequest, Hijack, hc]
  · have hc : checkSameOrigin parseURL r = false := by
      simp only [checkSameOrigin, ho]
      cases hp : parseURL o with
      | none => rfl
      | some u =>
          cases heaf : equalASCIIFold u.host r.host with
          | false => exact heaf
          | true => exact absurd ((equalASCIIFold_iff _ _).1 heaf) (hmis u hp)
    have h1 : HandleRequest parseURL ⟨none, none⟩ r = some badOriginMsg := by
      simp [HandleRequest, hc]
    exact ⟨h1, by simp [Hijack, h1]⟩

/-- Witness for C3: a mismatching origin host is rejected and the hijack
step is never reached. -/
theorem default_origin_policy_witness :
    HandleRequest (fun _ => some ⟨"evil".data⟩) ⟨none, none⟩
        ⟨[['x']], "good".data⟩ = some badOriginMsg ∧
    Hijack (fun _ => some ⟨"evil".data⟩) ⟨none, none⟩
        ⟨[['x']], "good".data⟩ (.ok 1) = .error badOriginMsg := by
  refine (default_origin_policy (fun _ => some ⟨"evil".data⟩)
      ⟨[['x']], "good".data⟩ (.ok 1)).2.2 ['x'] [] rfl ?_
  intro u hu
  cases hu
  decide

/-! ## C8: proxy CONNECT failure handling -/

/-- `strings.SplitN(s, sep, 2)` on a string with one separator-free prefix
before the first separator yields exactly that prefix and the rest. -/
theorem splitN2_append : ∀ (pre : List Char) (post : List Char) (sep : Char),
    sep ∉ pre → splitN2 (pre ++ sep :: post) sep = [pre, post]
  | [], post, sep, _ => by simp [splitN2]
  | c :: pre, post, sep, h => by
      have hc : ¬c = sep := fun hcs => h (by simp [hcs])
      have ih := splitN2_append pre post sep (fun hm => h (by simp [hm]))
      simp only [List.cons_append, splitN2, if_neg hc, List.append_eq, ih]

/-- C8: when the CONNECT exchange yields a response with status other than
200, the proxy dialer closes the connection and returns an error (no
connection), and the error message is the reason phrase of the status
line. -/
theorem proxy_connect_non200 (env : ProxyEnv) (conn : Nat) (resp : HTTPResponse)
    (pre post : List Char)
    (hdial : env.forwardDial = .ok conn) (hwrite : env.writeErr = none)
    (hread : env.readResp = .ok resp) (hstatus : resp.statusCode ≠ 200)
    (hline : resp.status = pre ++ ' ' :: post) (hpre : ' ' ∉ pre) :
    proxyDialContext env = (.err post, true) := by
  simp only [proxyDialContext, hdial, hwrite, hread]
  rw [if_pos hstatus, hline, splitN2_append pre post ' ' hpre]
  rfl

/-- Witness for C8: a 403 response surfaces the reason phrase and closes
the connection. -/
theorem proxy_connect_non200_witness :
    proxyDialContext ⟨.ok 5, none, .ok ⟨403, "403 Forbidden".data⟩⟩ =
      (.err "Forbidden".data, true) :=
  proxy_connect_non200 ⟨.ok 5, none, .ok ⟨403, "403 Forbidden".data⟩⟩ 5
    ⟨403, "403 Forbidden".data⟩ "403".data "Forbidden".data rfl rfl rfl
    (by decide) (by decide) (by decide)

/-! ## C9: dialer failure paths leak nothing -/

/-- C9: whenever `DialContext` returns a non-nil error the connection
handle is nil, and a transport connection opened during the attempt has
been closed. -/
theorem dialContext_error_cleanup (env : DialEnv) :
    (DialContext env).err ≠ none →
      (DialContext env).conn = none ∧
        ((DialContext env).opened = true → (DialContext env).closed = true) := by
  have hcases : (DialContext env).err = none ∨
      ((DialContext env).conn = none ∧
        ((DialContext env).opened = true → (DialContext env).closed = true)) := by
    unfold DialContext
    repeat' split
    all_goals simp
  exact fun h => hcases.resolve_left h

/-- Witness for C9: a failing URL resolution yields an error, no handle,
and no (hence no unclosed) transport connection. -/
theorem dialContext_error_cleanup_witness :
    (DialContext ⟨.error "bad url", none, none, .ok 0, false, none, .ok 0, none,
        .ok 0, false, none⟩).err ≠ none ∧
    (DialContext ⟨.error "bad url", none, none, .ok 0, false, none, .ok 0, none,
        .ok 0, false, none⟩).conn = none :=
  ⟨by decide, (dialContext_error_cleanup _ (by decide)).1⟩

/-! ## C4: replay buffer capacity and oldest-first eviction -/

/-- `slices.Index` never returns a value below `-1`. -/
theorem slicesIndex_nonneg_or [DecidableEq α] :
    ∀ (l : List α) (x : α), slicesIndex l x = -1 ∨ 0 ≤ slicesIndex l x
  | [], _ => Or.inl rfl
  | a :: rest, x => by
      simp only [slicesIndex]
      by_cases h : a = x
      · rw [if_pos h]
        exact Or.inr (by omega)
      · rw [if_neg h]
        rcases slicesIndex_nonneg_or rest x with h1 | h1
        · rw [if_pos h1]
          exact Or.inl rfl
        · rw [if_neg (by omega)]
          exact Or.inr (by omega)

/-- `slices.Index` returns `-1` exactly for absent elements. -/
theorem slicesIndex_eq_neg_one_iff [DecidableEq α] :
    ∀ (l : List α) (x : α), slicesIndex l x = -1 ↔ x ∉ l
  | [], x => by simp [slicesIndex]
  | a :: rest, x => by
      simp only [slicesIndex, List.mem_cons]
      by_cases h : a = x
      · rw [if_pos h]
        simp [h]
      · rw [if_neg h]
        have ih := slicesIndex_eq_neg_one_iff rest x
        rcases slicesIndex_nonneg_or rest x with h1 | h1
        · rw [if_pos h1]
          constructor
          · intro _
            rintro (hx | hx)
            · exact h hx.symm
            · exact ih.mp h1 hx
          · intro _
            rfl
        · rw [if_neg (by omega)]
          constructor
          · omega
          · intro hx
            exact absurd (ih.mpr (fun hm => hx (Or.inr hm))) (by omega)

/-- `CircularList.Has` is membership in the underlying slice. -/
theorem has_iff_mem [DecidableEq α] (c : CircularList α) (x : α) :
    c.Has x = true ↔ x ∈ c.list := by
  unfold CircularList.Has CircularList.Index
  rcases slicesIndex_nonneg_or c.list x with h | h
  · simp [h, (slicesIndex_eq_neg_one_iff c.list x).mp h]
  · have hne : slicesIndex c.list x ≠ -1 := by omega
    simp only [bne_iff_ne, ne_eq, hne, not_false_eq_true, true_iff]
    by_contra hx
    exact hne ((slicesIndex_eq_neg_one_iff c.list x).mpr hx)

/-- `CircularList.Has` is false exactly for absent elements. -/
theorem has_eq_false_iff [DecidableEq α] (c : CircularList α) (x : α) :
    c.Has x = false ↔ x ∉ c.list := by
  rw [← Bool.not_eq_true, not_iff_not]
  exact has_iff_mem c x

/-- Setting the slot just past a prefix replaces the element there. -/
theorem set_append_len (pre : List α) (p x : α) (post : List α) :
    (pre ++ p :: post).set pre.length x = pre ++ x :: post := by
  induction pre with
  | nil => rfl
  | cons a t ih => simp [List.set, ih]

/-- Filling the rest of the buffer exactly up to the wrap point: inserting
as many items as there are slots after the write index overwrites exactly
those slots and wraps the index to zero. -/
theorem putAll_chunk : ∀ (xs : List α) (pre post : List α),
    xs.length = post.length → post ≠ [] →
    putAll ⟨pre ++ post, pre.length⟩ xs = ⟨pre ++ xs, 0⟩
  | [], _, post, hlen, hne => by
      exact absurd (List.length_eq_zero.mp hlen.symm) hne
  | x :: xs, pre, [], hlen, _ => by simp at hlen
  | x :: xs, pre, p :: post', hlen, _ => by
      have hstep : CircularList.Put ⟨pre ++ p :: post', pre.length⟩ x =
          ⟨pre ++ x :: post', (pre.length + 1) % (pre.length + (post'.length + 1))⟩ := by
        simp [CircularList.Put, set_append_len]
      show putAll (CircularList.Put ⟨pre ++ p :: post', pre.length⟩ x) xs = _
      rw [hstep]
      match post', xs, hlen with
      | [], [], _ =>
          simp [putAll, Nat.mod_self]
      | q :: post'', xs, hlen =>
          have hxs : xs.length = (q :: post'').length := by
            simpa using hlen
          have hql : (q :: post'').length = post''.length + 1 := rfl
          have hmod : (pre.length + 1) % (pre.length + ((q :: post'').length + 1)) =
              pre.length + 1 := Nat.mod_eq_of_lt (by omega)
          rw [hmod]
          have hassoc : pre ++ x :: (q :: post'') = (pre ++ [x]) ++ (q :: post'') := by
            simp
          have hidx : pre.length + 1 = (pre ++ [x]).length := by simp
          rw [hassoc, hidx]
          rw [putAll_chunk xs (pre ++ [x]) (q :: post'') hxs (by simp)]
          simp

/-- `NewValidator` always starts from the 100-slot empty replay buffer. -/
theorem newValidator_keysUsed (fs : String → Option (List Nat)) (paths : List String)
    (v : Validator) (h : NewValidator fs paths = .ok v) :
    v.keysUsed = ⟨List.replicate 100 [], 0⟩ := by
  unfold NewValidator at h
  split at h
  · exact absurd h (by simp)
  · cases h
    rfl

/-- C4: the replay buffer of a fresh validator has capacity 100 and evicts
oldest-first; after 101 distinct insertions the first code is no longer
held while the most recent 100 all are. -/
theorem replay_buffer_eviction (fs : String → Option (List Nat)) (paths : List String)
    (v : Validator) (hnew : NewValidator fs paths = .ok v)
    (codes : List (List Char)) (c0 : List Char) (rest : List (List Char))
    (hcodes : codes = c0 :: rest) (hlen : codes.length = 101) (hnodup : codes.Nodup) :
    v.keysUsed.list.length = 100 ∧
    (putAll v.keysUsed codes).Has c0 = false ∧
    (∀ c ∈ rest, (putAll v.keysUsed codes).Has c = true) := by
  have hk : v.keysUsed = ⟨List.replicate 100 [], 0⟩ := newValidator_keysUsed fs paths v hnew
  subst hcodes
  have hrlen : rest.length = 100 := by simpa using hlen
  have hrne : rest ≠ [] := by
    intro h
    rw [h] at hrlen
    simp at hrlen
  set last := rest.getLast hrne with hlast
  set mid := rest.dropLast with hmid
  have hdecomp : mid ++ [last] = rest := List.dropLast_append_getLast hrne
  have hmidlen : mid.length = 99 := by
    rw [hmid, List.length_dropLast, hrlen]
  have hfold : putAll v.keysUsed (c0 :: rest) =
      CircularList.Put (putAll v.keysUsed (c0 :: mid)) last := by
    rw [← hdecomp]
    show putAll v.keysUsed ((c0 :: mid) ++ [last]) = _
    unfold putAll
    rw [List.foldl_append]
    rfl
  have hchunk : putAll v.keysUsed (c0 :: mid) = ⟨c0 :: mid, 0⟩ := by
    rw [hk]
    have := putAll_chunk (c0 :: mid) [] (List.replicate 100 ([] : List Char))
      (by simp [hmidlen]) (by simp)
    simpa using this
  have hput : CircularList.Put ⟨c0 :: mid, 0⟩ last = ⟨last :: mid, 1⟩ := by
    simp [CircularList.Put, hmidlen]
  have hfinal : putAll v.keysUsed (c0 :: rest) = ⟨last :: mid, 1⟩ := by
    rw [hfold, hchunk, hput]
  have hnodup' : c0 ∉ rest ∧ rest.Nodup := by
    simpa [List.nodup_cons] using hnodup
  refine ⟨by simp [hk], ?_, ?_⟩
  · rw [hfinal, has_eq_false_iff]
    intro hc
    rcases List.mem_cons.mp hc with h | h
    · exact hnodup'.1 (h ▸ List.getLast_mem hrne)
    · exact hnodup'.1 (by rw [← hdecomp]; exact List.mem_append_left _ h)
  · intro c hc
    rw [hfinal, has_iff_mem]
    rw [← hdecomp] at hc
    rcases List.mem_append.mp hc with h | h
    · exact List.mem_cons_of_mem _ h
    · simp only [List.mem_singleton] at h
      exact h ▸ List.mem_cons_self _ _

/-- Witness for C4: after inserting 101 distinct concrete codes into a
fresh validator's buffer the first is forgotten and the last 100 held. -/
theorem replay_buffer_eviction_witness :
    (putAll (⟨[], ⟨List.replicate 100 [], 0⟩⟩ : Validator).keysUsed codesA).Has
        [Char.ofNat 65] = false ∧
    ∀ c ∈ codesA.tail,
      (putAll (⟨[], ⟨List.replicate 100 [], 0⟩⟩ : Validator).keysUsed codesA).Has c = true :=
  have h := replay_buffer_eviction (fun _ => none) [] ⟨[], ⟨List.replicate 100 [], 0⟩⟩ rfl
    codesA [Char.ofNat 65] codesA.tail (by decide) (by decide) (by decide)
  ⟨h.2.1, h.2.2⟩

/-! ## C2: replay rejection on one validator -/

/-- C2: on a fresh validator holding the code's key, validating a freshly
generated, time-correct code succeeds and records the code; validating
the same code again on the resulting validator fails with the distinct
already-used error, although the digest still matches the window. -/
theorem validate_replay_guard (algHash : Nat → HashFunction)
    (fs : String → Option (List Nat)) (v : Validator) (t : Nat)
    (path : String) (config : Config)
    (hfresh : v.keysUsed = ⟨List.replicate 100 [], 0⟩)
    (hid : config.id.length = 16)
    (hidb : ∀ b ∈ config.id, b < 256)
    (hdig : HmacSum algHash t config ≠ [])
    (hdigb : ∀ b ∈ HmacSum algHash t config, b < 256)
    (hlook : v.configPathsById.lookup config.id = some path)
    (hload : LoadConfig fs path = .ok config) :
    Validate algHash fs v t (GenerateCode algHash t config) =
      ({ v with keysUsed := v.keysUsed.Put (GenerateCode algHash t config) }, none) ∧
    Validate algHash fs
        { v with keysUsed := v.keysUsed.Put (GenerateCode algHash t config) } t
        (GenerateCode algHash t config) =
      ({ v with keysUsed := v.keysUsed.Put (GenerateCode algHash t config) },
        some .codeAlreadyUsed) := by
  have hbytes : ∀ b ∈ config.id ++ HmacSum algHash t config, b < 256 := by
    intro b hb
    rcases List.mem_append.mp hb with h | h
    · exact hidb b h
    · exact hdigb b h
  have hdec : base64UrlDecode (GenerateCode algHash t config) =
      some (config.id ++ HmacSum algHash t config) :=
    base64UrlDecode_encode _ hbytes
  have hne : GenerateCode algHash t config ≠ [] :=
    base64UrlEncode_ne_nil (by
      intro h
      exact hdig (List.append_eq_nil.mp h).2)
  have hlen0 : ¬(GenerateCode algHash t config).length = 0 := by
    simpa [List.length_eq_zero] using hne
  have hnothas : ¬v.keysUsed.Has (GenerateCode algHash t config) = true := by
    rw [hfresh]
    rw [Bool.not_eq_true, has_eq_false_iff]
    intro hm
    exact hne (List.eq_of_mem_replicate hm)
  have hlen16 : ¬(config.id ++ HmacSum algHash t config).length ≤ 16 := by
    have hpos := List.length_pos.mpr hdig
    simp only [List.length_append, hid]
    omega
  have htake : (config.id ++ HmacSum algHash t config).take 16 = config.id :=
    List.take_left' hid
  have hdrop : (config.id ++ HmacSum algHash t config).drop 16 = HmacSum algHash t config :=
    List.drop_left' hid
  have hputlist : (v.keysUsed.Put (GenerateCode algHash t config)).list =
      GenerateCode algHash t config :: List.replicate 99 [] := by
    rw [hfresh]
    rfl
  have hhas2 : (v.keysUsed.Put (GenerateCode algHash t config)).Has
      (GenerateCode algHash t config) = true := by
    rw [has_iff_mem, hputlist]
    exact List.mem_cons_self _ _
  constructor
  · unfold Validate
    rw [if_neg hlen0, if_neg hnothas]
    simp only [hdec]
    rw [if_neg hlen16]
    simp only [htake, hlook, hload, hdrop]
    simp only [if_true]
  · unfold Validate
    rw [if_neg hlen0, if_pos hhas2]

/-- Witness for C2 at the concrete key record and hash family. -/
theorem validate_replay_guard_witness :
    Validate hashA fsA validatorA 0 (GenerateCode hashA 0 cfgA) =
      ({ validatorA with
          keysUsed := validatorA.keysUsed.Put (GenerateCode hashA 0 cfgA) }, none) ∧
    Validate hashA fsA
        { validatorA with
            keysUsed := validatorA.keysUsed.Put (GenerateCode hashA 0 cfgA) } 0
        (GenerateCode hashA 0 cfgA) =
      ({ validatorA with
          keysUsed := validatorA.keysUsed.Put (GenerateCode hashA 0 cfgA) },
        some .codeAlreadyUsed) :=
  validate_replay_guard hashA fsA validatorA 0 "k" cfgA rfl (by decide) (by decide)
    (by decide) (by decide) (by decide) rfl
